import Mathlib

/-!
Verification of the Pareto-front caching / approximation logic of
`sb_arch_opt/pareto_front.py` (`CachedParetoFrontMixin`).

Objective vectors (rows of the `F` matrix) are modelled as `List ℚ`:
on the concrete inputs used below every floating-point intermediate value
of the source is an exactly representable small rational, and all
comparisons are far from the rounding error, so exact rational arithmetic
is a faithful model of the float computation.

The external collaborators are modelled as follows:
* `NonDominatedSorting().do(F, only_non_dominated_front=True)` (pymoo):
  keep exactly the rows not Pareto-dominated by any row (`ndFilter`).
* `np.unique(pf, axis=0)` (numpy): sort rows lexicographically and drop
  duplicate rows (`uniqueRows`).
* `np.argsort` (numpy): ascending argsort (`argsortStable`; stable, which
  matches numpy's mergesort kind and, on the small inputs used here, its
  default kind as well; all claim-relevant conclusions are independent of
  the order chosen among tied entries).
* `calc_crowding_distance` (pymoo): translated in full further below.
-/

namespace SBArchOpt

/-- A row of the objective matrix `F`: one objective value per column. -/
abbrev Row := List ℚ

/-- Componentwise `≤` of two objective rows (false when lengths differ). -/
def allLe : List ℚ → List ℚ → Bool
  | [], [] => true
  | a :: as, b :: bs => decide (a ≤ b) && allLe as bs
  | _, _ => false

/-- Strict `<` in at least one component. -/
def anyLt : List ℚ → List ℚ → Bool
  | a :: as, b :: bs => decide (a < b) || anyLt as bs
  | _, _ => false

/-- Pareto dominance as used by pymoo's non-dominated sorting on an
objective matrix: `a` dominates `b` iff `a` is componentwise `≤ b` and
strictly `<` in at least one component. -/
def dominatesRow (a b : Row) : Bool := allLe a b && anyLt a b

/-- `NonDominatedSorting().do(pf, only_non_dominated_front=True)`:
the rows of `pf` that are not dominated by any row of `pf`. -/
def ndFilter (pf : List Row) : List Row :=
  pf.filter (fun x => !(pf.any (fun y => dominatesRow y x)))

/-- The property that no row of `l` is dominated by any other row of `l`. -/
def NonDomSet (l : List Row) : Prop :=
  ∀ x ∈ l, ∀ y ∈ l, dominatesRow y x = false

instance NonDomSet.instDecidable (l : List Row) : Decidable (NonDomSet l) :=
  inferInstanceAs (Decidable (∀ x ∈ l, ∀ y ∈ l, dominatesRow y x = false))

/-- Lexicographic `≤` on rows, the order used by `np.unique(..., axis=0)`. -/
def rowLe : Row → Row → Bool
  | x :: xs, y :: ys =>
    if x < y then true else if y < x then false else rowLe xs ys
  | [], _ => true
  | _, _ => false

/-- Insert a row into a lexicographically sorted list of rows. -/
def insertRow (r : Row) : List Row → List Row
  | [] => [r]
  | s :: ss => if rowLe r s then r :: s :: ss else s :: insertRow r ss

/-- Sort rows lexicographically (stable insertion sort). -/
def sortRows (l : List Row) : List Row := l.foldr insertRow []

/-- Collapse adjacent equal rows of a (sorted) list, as `np.unique` does
after sorting. -/
def dedupAdj : List Row → List Row
  | [] => []
  | [r] => [r]
  | r :: s :: ss => if r = s then dedupAdj (s :: ss) else r :: dedupAdj (s :: ss)

/-- `np.unique(pf, axis=0)`: the distinct rows of `pf` in ascending
lexicographic order. -/
def uniqueRows (l : List Row) : List Row := dedupAdj (sortRows l)

/-- Adjacent-pairs check that a list of rows is in ascending lexicographic
order. -/
def rowsSortedB : List Row → Bool
  | [] => true
  | [_] => true
  | a :: b :: t => rowLe a b && rowsSortedB (b :: t)

/-- Crowding-distance values: a rational score or `+∞` (`none`), the value
numpy's `inf` takes in `calc_crowding_distance`. -/
abbrev QInf := Option ℚ

/-- Order on scores: every rational is below `+∞`. -/
def qleB : QInf → QInf → Bool
  | _, none => true
  | none, some _ => false
  | some a, some b => decide (a ≤ b)

/-- Score of index `i` in a score vector (out-of-range reads as `+∞`;
never exercised on well-formed inputs). -/
def scoreAt (v : List QInf) (i : Nat) : QInf := v.getD i none

/-- Insert index `i` in front of the first index whose score is `≥` its
own; keeps the index list sorted by score and stable. -/
def insertIdx (v : List QInf) (i : Nat) : List Nat → List Nat
  | [] => [i]
  | j :: js => if qleB (scoreAt v i) (scoreAt v j) then i :: j :: js
               else j :: insertIdx v i js

/-- `np.argsort` on a score vector: indices of the scores in ascending
score order (stable). -/
def argsortStable (v : List QInf) : List Nat :=
  (List.range v.length).foldr (insertIdx v) []

/-- Ascending stable argsort of a vector of rationals (the
`kind='mergesort'` column argsorts inside `calc_crowding_distance`). -/
def argsortRat (v : List ℚ) : List Nat := argsortStable (v.map some)

/-- Sum of two crowding contributions; `+∞` is absorbing, as for numpy
`inf` under addition of nonnegative values. -/
def qadd : QInf → QInf → QInf
  | none, _ => none
  | _, none => none
  | some a, some b => some (a + b)

/-- Largest entry of a list of rationals (`np.max`). -/
def listMax (l : List ℚ) : ℚ := l.foldl max (l.headD 0)

/-- Smallest entry of a list of rationals (`np.min`). -/
def listMin (l : List ℚ) : ℚ := l.foldl min (l.headD 0)

/-- Per-point crowding contribution of objective column `j`, exactly as in
pymoo's `calc_crowding_distance`: sort the column, take the distance of
each value to its predecessor and successor (`±inf` sentinels at the two
ends), normalise by `max - min` of the column, and map back to the
original point positions through the inverse of the column argsort.
`norm == 0` makes every quotient of that column `nan`, which the source
then replaces by `0.0` (this also sends the boundary `inf` entries of the
column to `0`). -/
def colContrib (uF : List Row) (j : Nat) : List QInf :=
  let colv : List ℚ := uF.map (fun r => r.getD j 0)
  let I : List Nat := argsortRat colv
  let sorted : List ℚ := I.map (fun i => colv.getD i 0)
  let norm : ℚ := listMax colv - listMin colv
  let L : Nat := sorted.length
  let dtl : Nat → QInf := fun r =>
    if r = 0 then none else some (sorted.getD r 0 - sorted.getD (r - 1) 0)
  let dtn : Nat → QInf := fun r =>
    if r + 1 = L then none else some (sorted.getD (r + 1) 0 - sorted.getD r 0)
  let divN : QInf → QInf := fun x =>
    if norm = 0 then some 0 else x.map (fun q => q / norm)
  (List.range L).map (fun p =>
    qadd (divN (dtl (I.indexOf p))) (divN (dtn (I.indexOf p))))

/-- pymoo's `calc_crowding_distance(F)` (with its default
`filter_out_duplicates=True`): sets with at most two points get `inf`
everywhere; otherwise rows equal to an earlier row are filtered out before
the computation and are assigned crowding `0`; each remaining point gets
the mean over the objective columns of its two-sided normalised distance
contribution.  The `epsilon=1e-24` duplicate test is exact row equality
for the (exactly represented) inputs considered here. -/
def calcCrowding (F : List Row) : List QInf :=
  let n := F.length
  if n ≤ 2 then List.replicate n none
  else
    let m := (F.headD []).length
    let isUnique : List Nat := (List.range n).filter
      (fun i => (List.range i).all (fun j => !(F.getD j [] == F.getD i [])))
    let uF : List Row := isUnique.map (fun i => F.getD i [])
    let contribs : List (List QInf) := (List.range m).map (colContrib uF)
    let cd : List QInf := (List.range uF.length).map (fun p =>
      (contribs.foldl (fun acc col => qadd acc (col.getD p (some 0)))
        (some 0)).map (fun q => q / (m : ℚ)))
    (List.range n).map (fun i =>
      if isUnique.contains i then cd.getD (isUnique.indexOf i) (some 0)
      else some 0)

/-- One iteration of the down-sampling loop of `_calc_pareto_front`:
`crowding_of_front = calc_crowding_distance(pf)`,
`i_max_crowding = np.argsort(crowding_of_front)[1:]`,
`pf = pf[i_max_crowding, :]`.
Note `[1:]` drops the index of the smallest crowding value, so the row
with the lowest crowding distance is the one removed, and the remaining
rows are reordered by ascending crowding distance. -/
def crowdStep (crowd : List Row → List QInf) (pf : List Row) : List Row :=
  ((argsortStable (crowd pf)).tail).filterMap (fun i => pf[i]?)

/-- The `for _ in range(pf.shape[0]-n_pts_keep)` loop: the iteration count
is fixed up front, each iteration recomputes the crowding distance of the
current set and removes one point. -/
def downLoop (crowd : List Row → List QInf) : Nat → List Row → List Row
  | 0, pf => pf
  | k + 1, pf => downLoop crowd k (crowdStep crowd pf)

/-- The size-reduction epilogue of `_calc_pareto_front`:
`pf = np.unique(pf, axis=0)` followed by the removal loop when
`n_pts_keep is not None and pf.shape[0] > n_pts_keep` (the loop count is
taken from the deduplicated size at entry). -/
def downSample (crowd : List Row → List QInf) :
    Option Nat → List Row → List Row
  | none, pf0 => uniqueRows pf0
  | some k, pf0 =>
    if (uniqueRows pf0).length > k then
      downLoop crowd ((uniqueRows pf0).length - k) (uniqueRows pf0)
    else uniqueRows pf0

/-- A design variable as seen by `_calc_pareto_front`: whether it is a
continuous (`pymoo.core.variable.Real`) variable, and its lower/upper
bounds from `self.bounds()`.  Discrete variables carry integral bounds, so
the `int(xu[i]-xl[i]+1)` of the source is exact integer arithmetic. -/
structure VarB where
  isReal : Bool
  xl : Int
  xu : Int
deriving DecidableEq

/-- The size-estimation loop of `_calc_pareto_front`: `n = 1`, multiply in
`int(xu[i]-xl[i]+1)` per variable, and `n = None` (with a `break`) as soon
as a `Real` variable is seen. -/
def spaceSizeLoop : List VarB → Option Int
  | [] => some 1
  | v :: vs =>
    if v.isReal then none
    else (spaceSizeLoop vs).map (fun n => n * (v.xu - v.xl + 1))

/-- The branch condition `n is not None and n < pop_size*n_gen*n_repeat`
choosing the exhaustive-evaluation path. -/
def smallSpace (vars : List VarB) (budget : Nat) : Bool :=
  match spaceSizeLoop vars with
  | none => false
  | some n => decide (n < (budget : Int))

/-- The product `(upper_bound - lower_bound + 1)` over all dimensions, as
the spec words it (meaningful for a fully discrete space). -/
def specProdSize (vars : List VarB) : Int :=
  (vars.map (fun v => v.xu - v.xl + 1)).prod

/-- One merge iteration of the stochastic path: the first run's front is
taken as-is (`pf = res.F`), each later front is concatenated
(`np.row_stack`) and filtered to the non-dominated subset. -/
def mergeStep (acc : Option (List Row)) (f : List Row) : Option (List Row) :=
  match acc with
  | none => some f
  | some pf => some (ndFilter (pf ++ f))

/-- Errors `_calc_pareto_front` can propagate on the stochastic path:
a worker run that raised (surfaced by `futures[i].result()`, first failing
index in submission order wins), or the `np.unique(None)` failure when
there are zero runs to merge. -/
inductive PFErr where
  | runFail (e : Nat)
  | noResult
deriving DecidableEq

/-- One step of the fan-in loop over `futures[i].result()`: a previously
raised exception is already propagating, `futures[i].result()` raises the
run's own exception, or the run's front is merged in. -/
def mergeAcc (acc : Except Nat (Option (List Row)))
    (r : Except Nat (List Row)) : Except Nat (Option (List Row)) :=
  match acc, r with
  | .error e, _ => .error e
  | .ok _, .error e => .error e
  | .ok a, .ok f => .ok (mergeStep a f)

/-- The fan-in loop over `futures[i].result()` for `i in range(n_repeat)`:
each run either produced a front or raised (modelled as `Except Nat`, the
`Nat` identifying the exception).  The first raising run aborts the loop;
otherwise the fronts are merged in submission order via `mergeStep`. -/
def mergeRuns (rs : List (Except Nat (List Row))) :
    Except Nat (Option (List Row)) :=
  rs.foldl mergeAcc (.ok none)

/-- The inputs `_calc_pareto_front` draws from its collaborators:
the problem's variable descriptors, the objective rows of the evaluated
exhaustive sample, the results of the `n_repeat` parallel NSGA2 runs, and
the crowding-distance routine.

Modelled from the spec: `RepairedExhaustiveSampling` (this repository's
`sb_arch_opt/sampling.py`, not part of the sources here) together with
`Evaluator().eval` is modelled by `evalF`, the objective rows of every
valid point of the design space ("exhaustive enumeration of all valid
points", spec section 6). -/
structure CalcIn where
  vars : List VarB
  evalF : List Row
  runs : List (Except Nat (List Row))
  crowd : List Row → List QInf

/-- `_calc_pareto_front`, as a function of the persisted cache state
(`none` = no file at the cache path, `some c` = a file holding the pickled
array `c`) returning the result and the new cache state.

* cache hit: return the deserialized content unconditionally, no write;
* cache miss, fully discrete space smaller than the evaluation budget:
  the non-dominated subset of the exhaustively evaluated points;
* cache miss otherwise: merge the `n_repeat` parallel run fronts,
  propagating the first raising run and leaving the cache untouched;
* then `np.unique`, crowding-based down-sampling to `n_pts_keep`, and the
  pickle dump of the result to the cache path. -/
def calcParetoFront (cache : Option (List Row)) (popSize nGen nRepeat : Nat)
    (nPtsKeep : Option Nat) (inp : CalcIn) :
    Except PFErr (List Row) × Option (List Row) :=
  match cache with
  | some c => (.ok c, some c)
  | none =>
    let pre : Except PFErr (List Row) :=
      if smallSpace inp.vars (popSize * nGen * nRepeat) then
        .ok (ndFilter inp.evalF)
      else
        match mergeRuns inp.runs with
        | .error e => .error (.runFail e)
        | .ok none => .error .noResult
        | .ok (some pf0) => .ok pf0
    match pre with
    | .error e => (.error e, none)
    | .ok pf0 =>
      let pf := downSample inp.crowd nPtsKeep pf0
      (.ok pf, some pf)

instance instDecidableEqExcept {ε α : Type} [DecidableEq ε] [DecidableEq α] :
    DecidableEq (Except ε α) := fun x y =>
  match x, y with
  | .error a, .error b =>
    if h : a = b then .isTrue (by rw [h])
    else .isFalse (fun he => h (by cases he; rfl))
  | .ok a, .ok b =>
    if h : a = b then .isTrue (by rw [h])
    else .isFalse (fun he => h (by cases he; rfl))
  | .error _, .ok _ => .isFalse (fun he => by cases he)
  | .ok _, .error _ => .isFalse (fun he => by cases he)

/-- First exception raised by the runs in submission order, if any. -/
def firstRunError (rs : List (Except Nat (List Row))) : Option Nat :=
  rs.findSome? (fun r => match r with | .error e => some e | .ok _ => none)

/-! ### The cache key derivation of `_pf_cache_path`

Python string operations are modelled on `List Char`; the reprs and class
names that occur in practice are ASCII, for which `Char.toLower` and the
whitespace set below coincide with Python's `str.lower` / `str.strip`. -/

/-- `str.strip()` whitespace set (ASCII part). -/
def isPyWs (c : Char) : Bool :=
  c = ' ' || c = '\t' || c = '\n' || c = '\x0d' || c = '\x0b' || c = '\x0c'

/-- `str.lower()`. -/
def pyLower (s : List Char) : List Char := s.map Char.toLower

/-- `str.strip()`. -/
def pyStrip (s : List Char) : List Char :=
  ((s.dropWhile isPyWs).reverse.dropWhile isPyWs).reverse

/-- One character of `re.sub('[^0-9a-z]', '_', s)`: keep digits and
lowercase letters, replace everything else by an underscore. -/
def normChar (c : Char) : Char :=
  if ('0' ≤ c ∧ c ≤ '9') ∨ ('a' ≤ c ∧ c ≤ 'z') then c else '_'

/-- `re.sub('[^0-9a-z]', '_', s.lower().strip())`. -/
def normalizeId (s : List Char) : List Char :=
  (pyStrip (pyLower s)).map normChar

/-- Characters a cache key may contain: digits, lowercase letters and the
underscore. -/
def keyCharB (c : Char) : Bool :=
  decide ((('0' ≤ c ∧ c ≤ '9') ∨ ('a' ≤ c ∧ c ≤ 'z') ∨ c = '_'))

/-! #### MD5 (`hashlib.md5(...).hexdigest()`), on UTF-8 bytes -/

/-- UTF-8 encoding of one character (`str.encode('utf-8')`). -/
def utf8Char (c : Char) : List Nat :=
  let n := c.toNat
  if n < 128 then [n]
  else if n < 2048 then [192 + n / 64, 128 + n % 64]
  else if n < 65536 then [224 + n / 4096, 128 + (n / 64) % 64, 128 + n % 64]
  else [240 + n / 262144, 128 + (n / 4096) % 64, 128 + (n / 64) % 64,
        128 + n % 64]

/-- UTF-8 encoding of a string given as a character list. -/
def utf8Bytes (s : List Char) : List Nat := s.flatMap utf8Char

/-- `2^32`, the word modulus of MD5. -/
def M32 : Nat := 4294967296

/-- All-ones 32-bit mask. -/
def mask32 : Nat := 4294967295

/-- 32-bit left rotation (operand below `2^32`). -/
def rotl32 (x s : Nat) : Nat := ((x <<< s) % M32) ||| (x >>> (32 - s))

/-- The 64 MD5 sine-derived round constants. -/
def md5K : List Nat :=
  [0xd76aa478, 0xe8c7b756, 0x242070db, 0xc1bdceee,
   0xf57c0faf, 0x4787c62a, 0xa8304613, 0xfd469501,
   0x698098d8, 0x8b44f7af, 0xffff5bb1, 0x895cd7be,
   0x6b901122, 0xfd987193, 0xa679438e, 0x49b40821,
   0xf61e2562, 0xc040b340, 0x265e5a51, 0xe9b6c7aa,
   0xd62f105d, 0x02441453, 0xd8a1e681, 0xe7d3fbc8,
   0x21e1cde6, 0xc33707d6, 0xf4d50d87, 0x455a14ed,
   0xa9e3e905, 0xfcefa3f8, 0x676f02d9, 0x8d2a4c8a,
   0xfffa3942, 0x8771f681, 0x6d9d6122, 0xfde5380c,
   0xa4beea44, 0x4bdecfa9, 0xf6bb4b60, 0xbebfbc70,
   0x289b7ec6, 0xeaa127fa, 0xd4ef3085, 0x04881d05,
   0xd9d4d039, 0xe6db99e5, 0x1fa27cf8, 0xc4ac5665,
   0xf4292244, 0x432aff97, 0xab9423a7, 0xfc93a039,
   0x655b59c3, 0x8f0ccc92, 0xffeff47d, 0x85845dd1,
   0x6fa87e4f, 0xfe2ce6e0, 0xa3014314, 0x4e0811a1,
   0xf7537e82, 0xbd3af235, 0x2ad7d2bb, 0xeb86d391]

/-- The 64 MD5 per-round left-rotation amounts. -/
def md5S : List Nat :=
  [7, 12, 17, 22, 7, 12, 17, 22, 7, 12, 17, 22, 7, 12, 17, 22,
   5, 9, 14, 20, 5, 9, 14, 20, 5, 9, 14, 20, 5, 9, 14, 20,
   4, 11, 16, 23, 4, 11, 16, 23, 4, 11, 16, 23, 4, 11, 16, 23,
   6, 10, 15, 21, 6, 10, 15, 21, 6, 10, 15, 21, 6, 10, 15, 21]

/-- One MD5 round on state `(a, b, c, d)` with message words `M`. -/
def md5Round (M : List Nat) (st : Nat × Nat × Nat × Nat) (i : Nat) :
    Nat × Nat × Nat × Nat :=
  let (a, b, c, d) := st
  let fg : Nat × Nat :=
    if i < 16 then ((b &&& c) ||| ((b ^^^ mask32) &&& d), i)
    else if i < 32 then ((d &&& b) ||| ((d ^^^ mask32) &&& c), (5 * i + 1) % 16)
    else if i < 48 then (b ^^^ c ^^^ d, (3 * i + 5) % 16)
    else (c ^^^ (b ||| (d ^^^ mask32)), (7 * i) % 16)
  let f2 := (fg.1 + a + md5K.getD i 0 + M.getD fg.2 0) % M32
  (d, (b + rotl32 f2 (md5S.getD i 0)) % M32, b, c)

/-- Group 64 bytes into 16 little-endian 32-bit words. -/
def leWords : List Nat → List Nat
  | b0 :: b1 :: b2 :: b3 :: rest =>
    (b0 + 256 * b1 + 65536 * b2 + 16777216 * b3) :: leWords rest
  | _ => []

/-- Process one 64-byte chunk. -/
def md5Chunk (st : Nat × Nat × Nat × Nat) (chunk : List Nat) :
    Nat × Nat × Nat × Nat :=
  let M := leWords chunk
  let r := (List.range 64).foldl (md5Round M) st
  ((st.1 + r.1) % M32, (st.2.1 + r.2.1) % M32,
   (st.2.2.1 + r.2.2.1) % M32, (st.2.2.2 + r.2.2.2) % M32)

/-- Split a byte list into 64-byte chunks. -/
def chunks64 : List Nat → List (List Nat)
  | [] => []
  | b :: rest => (b :: rest).take 64 :: chunks64 ((b :: rest).drop 64)
termination_by l => l.length
decreasing_by simp; omega

/-- Little-endian 8-byte encoding of the 64-bit message bit length. -/
def lenBytes8 (n : Nat) : List Nat :=
  (List.range 8).map (fun i => (n >>> (8 * i)) % 256)

/-- MD5 padding: a `0x80` byte, zeros up to 56 mod 64, then the bit
length. -/
def md5Pad (msg : List Nat) : List Nat :=
  let len := msg.length
  msg ++ [128] ++ List.replicate ((119 - len % 64) % 64) 0 ++
    lenBytes8 ((8 * len) % (2 ^ 64))

/-- Little-endian bytes of one 32-bit word. -/
def wordLE (w : Nat) : List Nat :=
  [w % 256, (w >>> 8) % 256, (w >>> 16) % 256, (w >>> 24) % 256]

/-- The 16-byte MD5 digest of a byte string. -/
def md5Digest (msg : List Nat) : List Nat :=
  let r := (chunks64 (md5Pad msg)).foldl md5Chunk
    (0x67452301, 0xefcdab89, 0x98badcfe, 0x10325476)
  wordLE r.1 ++ wordLE r.2.1 ++ wordLE r.2.2.1 ++ wordLE r.2.2.2

/-- Lowercase hexadecimal digit of a nibble: code points 48-57 for `0-9`
and 97-102 for `a-f`. -/
def hexChar (n : Nat) : Char :=
  Char.ofNat (if n % 16 < 10 then 48 + n % 16 else 87 + n % 16)

/-- `hashlib.md5(...).hexdigest()`: two lowercase hex characters per
digest byte. -/
def md5Hex (msg : List Nat) : List Char :=
  (md5Digest msg).flatMap (fun b => [hexChar (b / 16), hexChar (b % 16)])

/-- The truncation step of `_pf_cache_path`: when the normalised identity
has more than 20 characters, replace it by the first 20 characters of the
MD5 hex digest of its UTF-8 encoding. -/
def keyOfIdent (t : List Char) : List Char :=
  if t.length > 20 then (md5Hex (utf8Bytes t)).take 20 else t

/-- The cache-key computation of `_pf_cache_path`:
`class_str = repr(self)`; if that starts with `'<'` (the default `object`
repr form) fall back to `self.__class__.__name__`; lowercase, strip and
normalise to `[0-9a-z_]`; then truncate/hash if over 20 characters. -/
def pfCacheKey (reprS className : String) : List Char :=
  keyOfIdent (normalizeId
    (if reprS.toList.headD ' ' = '<' then className.toList else reprS.toList))

/-- `os.path.expanduser(os.path.join('~', '.arch_opt_pf_cache',
class_str + '.pkl'))`: the cache file path under the user's home. -/
def pfCachePath (home : String) (reprS className : String) : String :=
  home ++ "/.arch_opt_pf_cache/" ++
    String.mk (pfCacheKey reprS className) ++ ".pkl"

/-- Number of rows of `l` dominating `y`; the termination measure for
finding a non-dominated dominator. -/
def domCount (l : List Row) (y : Row) : Nat :=
  (l.filter (fun z => dominatesRow z y)).length

/-! ## Properties of the dominance relation -/

theorem anyLt_irrefl : ∀ a : List ℚ, anyLt a a = false := by
  intro a
  induction a with
  | nil => rfl
  | cons x xs ih => simp [anyLt, ih]

theorem dominatesRow_irrefl (a : Row) : dominatesRow a a = false := by
  simp [dominatesRow, anyLt_irrefl]

theorem allLe_trans : ∀ {a b c : List ℚ},
    allLe a b = true → allLe b c = true → allLe a c = true := by
  intro a
  induction a with
  | nil =>
    intro b c hab hbc
    cases b with
    | nil => cases c with
      | nil => rfl
      | cons z zs => simp [allLe] at hbc
    | cons y ys => simp [allLe] at hab
  | cons x xs ih =>
    intro b c hab hbc
    cases b with
    | nil => simp [allLe] at hab
    | cons y ys =>
      cases c with
      | nil => simp [allLe] at hbc
      | cons z zs =>
        simp only [allLe, Bool.and_eq_true, decide_eq_true_eq] at hab hbc ⊢
        exact ⟨le_trans hab.1 hbc.1, ih hab.2 hbc.2⟩

theorem anyLt_of_anyLt_allLe : ∀ {a b c : List ℚ},
    anyLt a b = true → allLe b c = true → anyLt a c = true := by
  intro a
  induction a with
  | nil => intro b c hab _; simp [anyLt] at hab
  | cons x xs ih =>
    intro b c hab hbc
    cases b with
    | nil => simp [anyLt] at hab
    | cons y ys =>
      cases c with
      | nil => simp [allLe] at hbc
      | cons z zs =>
        simp only [anyLt, Bool.or_eq_true, decide_eq_true_eq] at hab ⊢
        simp only [allLe, Bool.and_eq_true, decide_eq_true_eq] at hbc
        rcases hab with h | h
        · exact Or.inl (lt_of_lt_of_le h hbc.1)
        · exact Or.inr (ih h hbc.2)

theorem dominatesRow_trans {a b c : Row} (hab : dominatesRow a b = true)
    (hbc : dominatesRow b c = true) : dominatesRow a c = true := by
  simp only [dominatesRow, Bool.and_eq_true] at hab hbc ⊢
  exact ⟨allLe_trans hab.1 hbc.1, anyLt_of_anyLt_allLe hab.2 hbc.1⟩

theorem allLe_antisymm : ∀ {a b : List ℚ},
    allLe a b = true → allLe b a = true → a = b := by
  intro a
  induction a with
  | nil =>
    intro b hab _
    cases b with
    | nil => rfl
    | cons y ys => simp [allLe] at hab
  | cons x xs ih =>
    intro b hab hba
    cases b with
    | nil => simp [allLe] at hab
    | cons y ys =>
      simp only [allLe, Bool.and_eq_true, decide_eq_true_eq] at hab hba
      have hxy : x = y := le_antisymm hab.1 hba.1
      rw [hxy, ih hab.2 hba.2]

theorem dominatesRow_asymm {a b : Row} (h : dominatesRow a b = true) :
    dominatesRow b a = false := by
  by_contra hba
  rw [Bool.not_eq_false] at hba
  simp only [dominatesRow, Bool.and_eq_true] at h hba
  have : a = b := allLe_antisymm h.1 hba.1
  rw [this] at h
  rw [anyLt_irrefl] at h
  exact Bool.false_ne_true h.2

/-! ## Properties of the non-dominated filter -/

theorem mem_ndFilter {pf : List Row} {x : Row} :
    x ∈ ndFilter pf ↔ x ∈ pf ∧ ∀ y ∈ pf, dominatesRow y x = false := by
  simp only [ndFilter, List.mem_filter, Bool.not_eq_true', List.any_eq_false,
    Bool.not_eq_true]

theorem ndFilter_subset {pf : List Row} {x : Row} (h : x ∈ ndFilter pf) :
    x ∈ pf := (mem_ndFilter.mp h).1

theorem ndFilter_nondom (pf : List Row) : NonDomSet (ndFilter pf) := by
  intro x hx y hy
  exact (mem_ndFilter.mp hx).2 y (ndFilter_subset hy)

theorem ndFilter_eq_of_nondom {pf : List Row} (h : NonDomSet pf) :
    ndFilter pf = pf := by
  unfold ndFilter
  apply List.filter_eq_self.mpr
  intro x hx
  simp only [Bool.not_eq_true', List.any_eq_false, Bool.not_eq_true]
  exact fun y hy => h x hx y hy

theorem NonDomSet.mem_subset {S T : List Row} (h : NonDomSet S)
    (hsub : ∀ x ∈ T, x ∈ S) : NonDomSet T :=
  fun x hx y hy => h x (hsub x hx) y (hsub y hy)

theorem filter_length_mono {α : Type} (p q : α → Bool) (l : List α)
    (h : ∀ a, p a = true → q a = true) :
    (l.filter p).length ≤ (l.filter q).length := by
  induction l with
  | nil => simp
  | cons b t ih =>
    by_cases hp : p b = true
    · rw [List.filter_cons_of_pos hp, List.filter_cons_of_pos (h b hp)]
      simpa using ih
    · rw [List.filter_cons_of_neg (by simpa using hp)]
      by_cases hq : q b = true
      · rw [List.filter_cons_of_pos hq]
        exact le_trans ih (Nat.le_succ _)
      · rw [List.filter_cons_of_neg (by simpa using hq)]
        exact ih

theorem filter_length_strict {α : Type} (p q : α → Bool) (l : List α)
    (h : ∀ a, p a = true → q a = true) (a : α) (ha : a ∈ l)
    (hqa : q a = true) (hpa : p a = false) :
    (l.filter p).length < (l.filter q).length := by
  induction l with
  | nil => cases ha
  | cons b t ih =>
    by_cases hp : p b = true
    · rw [List.filter_cons_of_pos hp, List.filter_cons_of_pos (h b hp)]
      simp only [List.length_cons, Nat.add_lt_add_iff_right]
      have hab : a ≠ b := fun he => by rw [he, hp] at hpa; cases hpa
      exact ih (by rcases List.mem_cons.mp ha with h' | h'
                   · exact absurd h' hab
                   · exact h')
    · rw [List.filter_cons_of_neg (by simpa using hp)]
      by_cases hq : q b = true
      · rw [List.filter_cons_of_pos hq]
        exact lt_of_le_of_lt (filter_length_mono p q t h)
          (Nat.lt_succ_self _)
      · rw [List.filter_cons_of_neg (by simpa using hq)]
        have hab : a ≠ b := fun he => hq (he ▸ hqa)
        exact ih (by rcases List.mem_cons.mp ha with h' | h'
                     · exact absurd h' hab
                     · exact h')

theorem exists_nd_dominator_fuel : ∀ (fuel : Nat) (l : List Row) (x y : Row),
    y ∈ l → dominatesRow y x = true → domCount l y ≤ fuel →
    ∃ z ∈ l, dominatesRow z x = true ∧ ∀ w ∈ l, dominatesRow w z = false := by
  intro fuel
  induction fuel with
  | zero =>
    intro l x y hy hyx hc
    refine ⟨y, hy, hyx, fun w hw => ?_⟩
    by_contra hwy
    rw [Bool.not_eq_false] at hwy
    have : w ∈ l.filter (fun z => dominatesRow z y) :=
      List.mem_filter.mpr ⟨hw, hwy⟩
    have : 0 < domCount l y := List.length_pos.mpr (fun he => by
      rw [he] at this; cases this)
    omega
  | succ n ih =>
    intro l x y hy hyx hc
    by_cases hdom : ∃ w ∈ l, dominatesRow w y = true
    · obtain ⟨w, hw, hwy⟩ := hdom
      have hwx : dominatesRow w x = true := dominatesRow_trans hwy hyx
      have hlt : domCount l w < domCount l y := by
        unfold domCount
        exact filter_length_strict (fun z => dominatesRow z w)
          (fun z => dominatesRow z y) l
          (fun a haw => dominatesRow_trans haw hwy) w hw hwy
          (dominatesRow_irrefl w)
      exact ih l x w hw hwx (by omega)
    · push_neg at hdom
      refine ⟨y, hy, hyx, fun w hw => ?_⟩
      by_contra hwy
      rw [Bool.not_eq_false] at hwy
      exact absurd hwy (by simpa using hdom w hw)

theorem exists_nd_dominator {l : List Row} {x : Row}
    (h : ∃ y ∈ l, dominatesRow y x = true) :
    ∃ z ∈ ndFilter l, dominatesRow z x = true := by
  obtain ⟨y, hy, hyx⟩ := h
  obtain ⟨z, hz, hzx, hznd⟩ :=
    exists_nd_dominator_fuel (domCount l y) l x y hy hyx (le_refl _)
  exact ⟨z, mem_ndFilter.mpr ⟨hz, hznd⟩, hzx⟩

/-- Filtering a set to its non-dominated subset first does not change the
non-dominated subset of a union: membership in
`ndFilter (ndFilter A ++ B)` and in `ndFilter (A ++ B)` agree. -/
theorem mem_ndFilter_ndFilter_append (A B : List Row) (x : Row) :
    x ∈ ndFilter (ndFilter A ++ B) ↔ x ∈ ndFilter (A ++ B) := by
  simp only [mem_ndFilter, List.mem_append]
  constructor
  · rintro ⟨hx, hnd⟩
    have hx' : x ∈ A ∨ x ∈ B := by
      rcases hx with h | h
      · exact Or.inl h.1
      · exact Or.inr h
    refine ⟨hx', ?_⟩
    intro y hy
    rcases hy with hyA | hyB
    · by_contra hyx
      rw [Bool.not_eq_false] at hyx
      obtain ⟨z, hz, hzx⟩ := exists_nd_dominator ⟨y, hyA, hyx⟩
      have := hnd z (Or.inl (mem_ndFilter.mp hz))
      rw [hzx] at this
      cases this
    · exact hnd y (Or.inr hyB)
  · rintro ⟨hx, hnd⟩
    have hx' : (x ∈ A ∧ ∀ y ∈ A, dominatesRow y x = false) ∨ x ∈ B := by
      rcases hx with hxA | hxB
      · exact Or.inl ⟨hxA, fun y hy => hnd y (Or.inl hy)⟩
      · exact Or.inr hxB
    refine ⟨hx', ?_⟩
    intro y hy
    rcases hy with hyA | hyB
    · exact hnd y (Or.inl hyA.1)
    · exact hnd y (Or.inr hyB)

/-! ## Properties of the incremental merge of run fronts -/

theorem mem_ndFilter_append_congr {A A' B : List Row}
    (h : ∀ y, y ∈ A ↔ y ∈ A') (x : Row) :
    x ∈ ndFilter (A ++ B) ↔ x ∈ ndFilter (A' ++ B) := by
  simp only [mem_ndFilter, List.mem_append]
  constructor
  · rintro ⟨hx, hnd⟩
    refine ⟨by rw [← h x] at *; tauto, fun y hy => hnd y (by rw [h y] at *; tauto)⟩
  · rintro ⟨hx, hnd⟩
    refine ⟨by rw [h x] at *; tauto, fun y hy => hnd y (by rw [← h y] at *; tauto)⟩

theorem foldl_mergeStep_invariant :
    ∀ (rest : List (List Row)) (A J pf : List Row),
    (∀ x, x ∈ A ↔ x ∈ ndFilter J) →
    List.foldl mergeStep (some A) rest = some pf →
    ∀ x, x ∈ pf ↔ x ∈ ndFilter (J ++ rest.flatten) := by
  intro rest
  induction rest with
  | nil =>
    intro A J pf hAJ hfold x
    simp only [List.foldl_nil, Option.some_inj] at hfold
    subst hfold
    simpa using hAJ x
  | cons f rs ih =>
    intro A J pf hAJ hfold x
    simp only [List.foldl_cons, mergeStep] at hfold
    have hy : ∀ y, y ∈ ndFilter (A ++ f) ↔ y ∈ ndFilter (J ++ f) := by
      intro y
      exact (mem_ndFilter_append_congr hAJ y).trans
        (mem_ndFilter_ndFilter_append J f y)
    have hmain := ih (ndFilter (A ++ f)) (J ++ f) pf hy hfold x
    rw [List.flatten_cons, ← List.append_assoc]
    exact hmain

/-- The running front after merging a nonempty prefix of run fronts is,
as a set, the non-dominated subset of the union of those fronts, provided
each front is itself internally non-dominated (the first one is adopted
unfiltered by the source). -/
theorem foldl_mergeStep_eq_nd_flatten {frs : List (List Row)} {pf : List Row}
    (hnd : ∀ f ∈ frs, NonDomSet f)
    (h : List.foldl mergeStep none frs = some pf) :
    ∀ x, x ∈ pf ↔ x ∈ ndFilter frs.flatten := by
  cases frs with
  | nil => simp at h
  | cons f rs =>
    have h' : List.foldl mergeStep (some f) rs = some pf := by
      simpa [mergeStep] using h
    have hf0 : ∀ x, x ∈ f ↔ x ∈ ndFilter f := by
      intro x
      rw [ndFilter_eq_of_nondom (hnd f (List.mem_cons_self f rs))]
    intro x
    rw [foldl_mergeStep_invariant rs f f pf hf0 h' x]
    rw [List.flatten_cons]

theorem foldl_mergeStep_some :
    ∀ (rest : List (List Row)) (A : List Row),
    ∃ r, List.foldl mergeStep (some A) rest = some r := by
  intro rest
  induction rest with
  | nil => exact fun A => ⟨A, rfl⟩
  | cons f rs ih =>
    intro A
    simpa [mergeStep] using ih (ndFilter (A ++ f))

theorem mergeAcc_foldl_error (e : Nat) :
    ∀ rs : List (Except Nat (List Row)),
    rs.foldl mergeAcc (.error e) = (.error e : Except Nat (Option (List Row))) := by
  intro rs
  induction rs with
  | nil => rfl
  | cons r t ih =>
    simp only [List.foldl_cons]
    have : mergeAcc (.error e) r = .error e := by cases r <;> rfl
    rw [this, ih]

theorem mergeAcc_foldl_ok :
    ∀ (rs : List (Except Nat (List Row))) (a o : Option (List Row)),
    rs.foldl mergeAcc (.ok a) = .ok o →
    ∃ frs : List (List Row), rs = frs.map .ok ∧
      List.foldl mergeStep a frs = o := by
  intro rs
  induction rs with
  | nil =>
    intro a o h
    simp only [List.foldl_nil, Except.ok.injEq] at h
    exact ⟨[], rfl, by simpa using h⟩
  | cons r t ih =>
    intro a o h
    cases r with
    | error e =>
      simp only [List.foldl_cons] at h
      rw [show mergeAcc (.ok a) (.error e) = .error e from rfl,
        mergeAcc_foldl_error] at h
      cases h
    | ok f =>
      simp only [List.foldl_cons] at h
      rw [show mergeAcc (.ok a) (.ok f) = .ok (mergeStep a f) from rfl] at h
      obtain ⟨frs, hrs, hfold⟩ := ih (mergeStep a f) o h
      exact ⟨f :: frs, by simp [hrs], by simpa using hfold⟩

/-- If every run succeeded, `mergeRuns` is the plain `mergeStep` fold over
the fronts. -/
theorem mergeRuns_ok {rs : List (Except Nat (List Row))}
    {o : Option (List Row)} (h : mergeRuns rs = .ok o) :
    ∃ frs : List (List Row), rs = frs.map .ok ∧
      List.foldl mergeStep none frs = o :=
  mergeAcc_foldl_ok rs none o h

theorem mergeAcc_foldl_first_error :
    ∀ (rs : List (Except Nat (List Row))) (a : Option (List Row)) (e : Nat),
    firstRunError rs = some e → rs.foldl mergeAcc (.ok a) = .error e := by
  intro rs
  induction rs with
  | nil => intro a e h; simp [firstRunError] at h
  | cons r t ih =>
    intro a e h
    cases r with
    | error e' =>
      simp only [firstRunError, List.findSome?_cons, Option.some.injEq] at h
      subst h
      simp only [List.foldl_cons]
      rw [show mergeAcc (.ok a) (.error e') = .error e' from rfl]
      exact mergeAcc_foldl_error e' t
    | ok f =>
      have h' : firstRunError t = some e := by
        simpa [firstRunError, List.findSome?_cons] using h
      simp only [List.foldl_cons]
      rw [show mergeAcc (.ok a) (.ok f) = .ok (mergeStep a f) from rfl]
      exact ih (mergeStep a f) e h'

/-- The first raising run aborts the merge with its exception. -/
theorem mergeRuns_first_error {rs : List (Except Nat (List Row))} {e : Nat}
    (h : firstRunError rs = some e) : mergeRuns rs = .error e :=
  mergeAcc_foldl_first_error rs none e h

/-! ## Properties of the stable argsort and of one removal iteration -/

theorem qleB_refl (a : QInf) : qleB a a = true := by
  cases a with
  | none => rfl
  | some q => simp [qleB]

theorem qleB_total (a b : QInf) : qleB a b = true ∨ qleB b a = true := by
  cases a with
  | none => cases b with
    | none => exact Or.inl rfl
    | some q => exact Or.inr rfl
  | some p => cases b with
    | none => exact Or.inl rfl
    | some q => simpa [qleB] using le_total p q

theorem qleB_trans {a b c : QInf} (hab : qleB a b = true)
    (hbc : qleB b c = true) : qleB a c = true := by
  cases a with
  | none => cases b with
    | none => exact hbc
    | some q => simp [qleB] at hab
  | some p =>
    cases c with
    | none => rfl
    | some r =>
      cases b with
      | none => simp [qleB] at hbc
      | some q =>
        simp only [qleB, decide_eq_true_eq] at hab hbc ⊢
        exact le_trans hab hbc

theorem insertIdx_perm (v : List QInf) (i : Nat) :
    ∀ l : List Nat, (insertIdx v i l).Perm (i :: l) := by
  intro l
  induction l with
  | nil => exact List.Perm.refl _
  | cons j js ih =>
    unfold insertIdx
    by_cases h : qleB (scoreAt v i) (scoreAt v j) = true
    · rw [if_pos h]
    · rw [if_neg h]
      exact (List.Perm.cons j ih).trans (List.Perm.swap i j js)

theorem foldr_insertIdx_perm (v : List QInf) :
    ∀ is : List Nat, (is.foldr (insertIdx v) []).Perm is := by
  intro is
  induction is with
  | nil => exact List.Perm.refl _
  | cons i rest ih =>
    exact (insertIdx_perm v i _).trans (List.Perm.cons i ih)

theorem argsortStable_perm (v : List QInf) :
    (argsortStable v).Perm (List.range v.length) :=
  foldr_insertIdx_perm v (List.range v.length)

theorem insertIdx_pairwise (v : List QInf) (i : Nat) :
    ∀ l : List Nat,
    List.Pairwise (fun a b => qleB (scoreAt v a) (scoreAt v b) = true) l →
    List.Pairwise (fun a b => qleB (scoreAt v a) (scoreAt v b) = true)
      (insertIdx v i l) := by
  intro l
  induction l with
  | nil => intro _; simp [insertIdx]
  | cons j js ih =>
    intro hp
    rw [List.pairwise_cons] at hp
    unfold insertIdx
    by_cases h : qleB (scoreAt v i) (scoreAt v j) = true
    · rw [if_pos h]
      rw [List.pairwise_cons]
      constructor
      · intro a ha
        rcases List.mem_cons.mp ha with rfl | ha'
        · exact h
        · exact qleB_trans h (hp.1 a ha')
      · exact List.pairwise_cons.mpr hp
    · rw [if_neg h]
      have hji : qleB (scoreAt v j) (scoreAt v i) = true := by
        rcases qleB_total (scoreAt v i) (scoreAt v j) with h' | h'
        · exact absurd h' h
        · exact h'
      rw [List.pairwise_cons]
      constructor
      · intro a ha
        have := (insertIdx_perm v i js).mem_iff.mp ha
        rcases List.mem_cons.mp this with rfl | ha'
        · exact hji
        · exact hp.1 a ha'
      · exact ih hp.2

theorem argsortStable_pairwise (v : List QInf) :
    List.Pairwise (fun a b => qleB (scoreAt v a) (scoreAt v b) = true)
      (argsortStable v) := by
  unfold argsortStable
  generalize List.range v.length = is
  induction is with
  | nil => simp
  | cons i rest ih => exact insertIdx_pairwise v i _ ih

/-- The argsort of a nonempty score vector starts with an index achieving
the minimal score. -/
theorem argsortStable_head_min (v : List QInf) (h : 0 < v.length) :
    ∃ i t, argsortStable v = i :: t ∧ i < v.length ∧
      ∀ j < v.length, qleB (scoreAt v i) (scoreAt v j) = true := by
  have hperm := argsortStable_perm v
  cases hA : argsortStable v with
  | nil =>
    rw [hA] at hperm
    have := hperm.length_eq
    simp at this
    omega
  | cons i t =>
    rw [hA] at hperm
    have hi : i < v.length := by
      have : i ∈ List.range v.length := hperm.subset (List.mem_cons_self i t)
      simpa using this
    refine ⟨i, t, rfl, hi, ?_⟩
    intro j hj
    have hjmem : j ∈ i :: t := hperm.mem_iff.mpr (by simpa using hj)
    rcases List.mem_cons.mp hjmem with rfl | hjt
    · exact qleB_refl _
    · have hp := argsortStable_pairwise v
      rw [hA, List.pairwise_cons] at hp
      exact hp.1 j hjt

theorem filterMap_getElem_range :
    ∀ (l : List Row), (List.range l.length).filterMap (fun k => l[k]?) = l := by
  intro l
  induction l with
  | nil => rfl
  | cons a t ih =>
    rw [List.length_cons, List.range_succ_eq_map]
    rw [List.filterMap_cons]
    simp only [List.getElem?_cons_zero]
    rw [List.filterMap_map]
    have : (fun k => (a :: t)[k]?) ∘ Nat.succ = fun k => t[k]? := by
      funext k
      simp [List.getElem?_cons_succ]
    rw [this, ih]

theorem perm_cons_eraseIdx :
    ∀ (l : List Row) (i : Nat) (h : i < l.length),
    l.Perm (l[i] :: l.eraseIdx i) := by
  intro l
  induction l with
  | nil => intro i h; simp at h
  | cons a t ih =>
    intro i h
    cases i with
    | zero =>
      rw [List.eraseIdx_cons_zero]
      exact List.Perm.refl _
    | succ n =>
      rw [List.eraseIdx_cons_succ]
      have hn : n < t.length := by simpa using h
      have h1 : (a :: t).Perm (a :: (t[n] :: t.eraseIdx n)) :=
        List.Perm.cons a (ih n hn)
      exact h1.trans (List.Perm.swap (t[n]) a (t.eraseIdx n))

/-- One removal iteration: when the crowding routine returns one score per
point, `crowdStep` removes exactly one point, one achieving the minimal
crowding distance of the current set, and keeps all others. -/
theorem crowdStep_spec (crowd : List Row → List QInf) (pf : List Row)
    (hc : (crowd pf).length = pf.length) (h0 : 0 < pf.length) :
    ∃ i, i < pf.length ∧
      (∀ j < pf.length,
        qleB (scoreAt (crowd pf) i) (scoreAt (crowd pf) j) = true) ∧
      (crowdStep crowd pf).Perm (pf.eraseIdx i) := by
  obtain ⟨i, t, hA, hi, hmin⟩ :=
    argsortStable_head_min (crowd pf) (by omega)
  have hilt : i < pf.length := by omega
  refine ⟨i, hilt, fun j hj => hmin j (by omega), ?_⟩
  have hstep : crowdStep crowd pf = t.filterMap (fun k => pf[k]?) := by
    unfold crowdStep
    rw [hA]
    rfl
  have hperm : (i :: t).Perm (List.range pf.length) := by
    rw [← hA, ← hc]
    exact argsortStable_perm (crowd pf)
  have hcons : (i :: t).filterMap (fun k => pf[k]?) =
      pf[i] :: t.filterMap (fun k => pf[k]?) := by
    rw [List.filterMap_cons]
    rw [List.getElem?_eq_getElem hilt]
  have hfm : ((i :: t).filterMap (fun k => pf[k]?)).Perm pf := by
    have := hperm.filterMap (fun k => pf[k]?)
    rwa [filterMap_getElem_range] at this
  rw [hcons] at hfm
  have herase := perm_cons_eraseIdx pf i hilt
  have hcomb : (pf[i] :: t.filterMap (fun k => pf[k]?)).Perm
      (pf[i] :: pf.eraseIdx i) := hfm.trans herase
  rw [hstep]
  exact hcomb.cons_inv

theorem crowdStep_length (crowd : List Row → List QInf) (pf : List Row)
    (hc : (crowd pf).length = pf.length) :
    (crowdStep crowd pf).length = pf.length - 1 := by
  cases pf with
  | nil =>
    have h0 : (crowd []).length = 0 := by simpa using hc
    unfold crowdStep argsortStable
    rw [h0]
    rfl
  | cons a t =>
    obtain ⟨i, hi, _, hperm⟩ :=
      crowdStep_spec crowd (a :: t) hc (by simp)
    rw [hperm.length_eq, List.length_eraseIdx_of_lt hi]

theorem crowdStep_subset {crowd : List Row → List QInf} {pf : List Row}
    {x : Row} (h : x ∈ crowdStep crowd pf) : x ∈ pf := by
  unfold crowdStep at h
  obtain ⟨k, _, hk⟩ := List.mem_filterMap.mp h
  obtain ⟨hlt, he⟩ := List.getElem?_eq_some.mp hk
  exact he ▸ List.getElem_mem hlt

theorem filterMap_getElem_nodup (l : List Row) (hl : l.Nodup) :
    ∀ is : List Nat, is.Nodup →
    (is.filterMap (fun k => l[k]?)).Nodup := by
  intro is
  induction is with
  | nil => intro _; simp
  | cons i rest ih =>
    intro his
    rw [List.filterMap_cons]
    cases hio : l[i]? with
    | none => exact ih his.of_cons
    | some x =>
      refine List.nodup_cons.mpr ⟨?_, ih his.of_cons⟩
      intro hmem
      obtain ⟨j, hj, hjo⟩ := List.mem_filterMap.mp hmem
      have hij : i = j := by
        apply List.getElem?_inj ?_ hl (hio.trans hjo.symm)
        exact (List.getElem?_eq_some.mp hio).1
      rw [List.nodup_cons] at his
      exact his.1 (hij ▸ hj)

theorem crowdStep_nodup {crowd : List Row → List QInf} {pf : List Row}
    (h : pf.Nodup) : (crowdStep crowd pf).Nodup := by
  unfold crowdStep
  apply filterMap_getElem_nodup pf h
  have hA : (argsortStable (crowd pf)).Nodup :=
    (argsortStable_perm (crowd pf)).symm.nodup (List.nodup_range _)
  cases hAe : argsortStable (crowd pf) with
  | nil => simp
  | cons i t =>
    rw [hAe] at hA
    exact hA.of_cons

/-! ## Properties of the removal loop and the down-sampling epilogue -/

theorem downLoop_length (crowd : List Row → List QInf)
    (hc : ∀ l, (crowd l).length = l.length) :
    ∀ (k : Nat) (pf : List Row),
    (downLoop crowd k pf).length = pf.length - k := by
  intro k
  induction k with
  | zero => intro pf; simp [downLoop]
  | succ n ih =>
    intro pf
    unfold downLoop
    rw [ih (crowdStep crowd pf), crowdStep_length crowd pf (hc pf)]
    omega

theorem downLoop_subset {crowd : List Row → List QInf} :
    ∀ {k : Nat} {pf x : _}, x ∈ downLoop crowd k pf → x ∈ pf := by
  intro k
  induction k with
  | zero => intro pf x h; exact h
  | succ n ih =>
    intro pf x h
    exact crowdStep_subset (ih h)

theorem downLoop_nodup {crowd : List Row → List QInf} :
    ∀ {k : Nat} {pf : List Row}, pf.Nodup → (downLoop crowd k pf).Nodup := by
  intro k
  induction k with
  | zero => intro pf h; exact h
  | succ n ih =>
    intro pf h
    exact ih (crowdStep_nodup h)

/-! ## Properties of `uniqueRows` (`np.unique(..., axis=0)`) -/

theorem rowLe_total : ∀ a b : Row, rowLe a b = true ∨ rowLe b a = true := by
  intro a
  induction a with
  | nil => intro b; exact Or.inl rfl
  | cons x xs ih =>
    intro b
    cases b with
    | nil => exact Or.inr rfl
    | cons y ys =>
      rcases lt_trichotomy x y with h | h | h
      · left; simp [rowLe, h]
      · subst h
        rcases ih ys with h' | h'
        · left; simpa [rowLe, lt_irrefl] using h'
        · right; simpa [rowLe, lt_irrefl] using h'
      · right; simp [rowLe, h]

theorem rowLe_trans : ∀ {a b c : Row},
    rowLe a b = true → rowLe b c = true → rowLe a c = true := by
  intro a
  induction a with
  | nil => intro b c _ _; rfl
  | cons x xs ih =>
    intro b c hab hbc
    cases b with
    | nil => simp [rowLe] at hab
    | cons y ys =>
      cases c with
      | nil => simp [rowLe] at hbc
      | cons z zs =>
        rcases lt_trichotomy x y with hxy | hxy | hxy
        · rcases lt_trichotomy y z with hyz | hyz | hyz
          · simp [rowLe, lt_trans hxy hyz]
          · subst hyz; simp [rowLe, hxy]
          · simp [rowLe, hyz, not_lt_of_gt hyz] at hbc
        · subst hxy
          rcases lt_trichotomy x z with hyz | hyz | hyz
          · simp [rowLe, hyz]
          · subst hyz
            simp only [rowLe, lt_irrefl, if_false] at hab hbc ⊢
            exact ih hab hbc
          · simp [rowLe, hyz, not_lt_of_gt hyz] at hbc
        · simp [rowLe, hxy, not_lt_of_gt hxy] at hab

theorem rowLe_antisymm : ∀ {a b : Row},
    rowLe a b = true → rowLe b a = true → a = b := by
  intro a
  induction a with
  | nil =>
    intro b hab hba
    cases b with
    | nil => rfl
    | cons y ys => simp [rowLe] at hba
  | cons x xs ih =>
    intro b hab hba
    cases b with
    | nil => simp [rowLe] at hab
    | cons y ys =>
      rcases lt_trichotomy x y with hxy | hxy | hxy
      · simp [rowLe, hxy, not_lt_of_gt hxy] at hba
      · subst hxy
        simp only [rowLe, lt_irrefl, if_false] at hab hba
        rw [ih hab hba]
      · simp [rowLe, hxy, not_lt_of_gt hxy] at hab

theorem insertRow_perm (r : Row) :
    ∀ l : List Row, (insertRow r l).Perm (r :: l) := by
  intro l
  induction l with
  | nil => exact List.Perm.refl _
  | cons s ss ih =>
    unfold insertRow
    by_cases h : rowLe r s = true
    · rw [if_pos h]
    · rw [if_neg h]
      exact (List.Perm.cons s ih).trans (List.Perm.swap r s ss)

theorem sortRows_perm (l : List Row) : (sortRows l).Perm l := by
  unfold sortRows
  induction l with
  | nil => exact List.Perm.refl _
  | cons r t ih =>
    exact (insertRow_perm r _).trans (List.Perm.cons r ih)

theorem insertRow_pairwise (r : Row) :
    ∀ l : List Row,
    List.Pairwise (fun a b => rowLe a b = true) l →
    List.Pairwise (fun a b => rowLe a b = true) (insertRow r l) := by
  intro l
  induction l with
  | nil => intro _; simp [insertRow]
  | cons s ss ih =>
    intro hp
    rw [List.pairwise_cons] at hp
    unfold insertRow
    by_cases h : rowLe r s = true
    · rw [if_pos h]
      rw [List.pairwise_cons]
      constructor
      · intro a ha
        rcases List.mem_cons.mp ha with rfl | ha'
        · exact h
        · exact rowLe_trans h (hp.1 a ha')
      · exact List.pairwise_cons.mpr hp
    · rw [if_neg h]
      have hsr : rowLe s r = true := by
        rcases rowLe_total r s with h' | h'
        · exact absurd h' h
        · exact h'
      rw [List.pairwise_cons]
      constructor
      · intro a ha
        have := (insertRow_perm r ss).mem_iff.mp ha
        rcases List.mem_cons.mp this with rfl | ha'
        · exact hsr
        · exact hp.1 a ha'
      · exact ih hp.2

theorem sortRows_pairwise (l : List Row) :
    List.Pairwise (fun a b => rowLe a b = true) (sortRows l) := by
  unfold sortRows
  induction l with
  | nil => simp
  | cons r t ih => exact insertRow_pairwise r _ ih

theorem dedupAdj_mem : ∀ {l : List Row} {x : Row}, x ∈ dedupAdj l ↔ x ∈ l := by
  intro l
  induction l with
  | nil => intro x; simp [dedupAdj]
  | cons r t ih =>
    intro x
    cases t with
    | nil => simp [dedupAdj]
    | cons s ss =>
      by_cases hrs : r = s
      · simp only [dedupAdj, if_pos hrs]
        rw [ih]
        subst hrs
        simp [List.mem_cons]
      · simp only [dedupAdj, if_neg hrs]
        simp only [List.mem_cons]
        rw [show (x ∈ dedupAdj (s :: ss)) ↔ (x ∈ s :: ss) from ih]
        simp [List.mem_cons]

theorem dedupAdj_pairwise : ∀ {l : List Row},
    List.Pairwise (fun a b => rowLe a b = true) l →
    List.Pairwise (fun a b => rowLe a b = true ∧ a ≠ b) (dedupAdj l) := by
  intro l
  induction l with
  | nil => intro _; simp [dedupAdj]
  | cons r t ih =>
    intro hp
    rw [List.pairwise_cons] at hp
    cases t with
    | nil => simp [dedupAdj]
    | cons s ss =>
      by_cases hrs : r = s
      · simp only [dedupAdj, if_pos hrs]
        exact ih hp.2
      · simp only [dedupAdj, if_neg hrs]
        refine List.pairwise_cons.mpr ⟨?_, ih hp.2⟩
        intro a ha
        have hat : a ∈ s :: ss := dedupAdj_mem.mp ha
        refine ⟨hp.1 a hat, ?_⟩
        intro hra
        rcases List.mem_cons.mp hat with rfl | hass
        · exact hrs hra
        · have hsa : rowLe s a = true := by
            have h2 := hp.2
            rw [List.pairwise_cons] at h2
            exact h2.1 a hass
          have hrsle : rowLe r s = true := hp.1 s (List.mem_cons_self s ss)
          subst hra
          exact hrs (rowLe_antisymm hrsle hsa)

theorem uniqueRows_mem {l : List Row} {x : Row} :
    x ∈ uniqueRows l ↔ x ∈ l := by
  unfold uniqueRows
  rw [dedupAdj_mem]
  exact (sortRows_perm l).mem_iff

theorem uniqueRows_nodup (l : List Row) : (uniqueRows l).Nodup :=
  (dedupAdj_pairwise (sortRows_pairwise l)).imp (fun h => h.2)

theorem rowsSortedB_of_pairwise : ∀ {l : List Row},
    List.Pairwise (fun a b => rowLe a b = true) l → rowsSortedB l = true := by
  intro l
  induction l with
  | nil => intro _; rfl
  | cons a t ih =>
    intro hp
    rw [List.pairwise_cons] at hp
    cases t with
    | nil => rfl
    | cons b ss =>
      show (rowLe a b && rowsSortedB (b :: ss)) = true
      rw [hp.1 b (List.mem_cons_self b ss), ih hp.2]
      rfl

theorem uniqueRows_sortedB (l : List Row) :
    rowsSortedB (uniqueRows l) = true :=
  rowsSortedB_of_pairwise
    ((dedupAdj_pairwise (sortRows_pairwise l)).imp (fun h => h.1))

theorem downSample_some_eq (crowd : List Row → List QInf) (pf0 : List Row)
    (k : Nat) :
    downSample crowd (some k) pf0 =
      if (uniqueRows pf0).length > k then
        downLoop crowd ((uniqueRows pf0).length - k) (uniqueRows pf0)
      else uniqueRows pf0 := rfl

theorem downSample_of_le (crowd : List Row → List QInf) (pf0 : List Row)
    (k : Nat) (h : (uniqueRows pf0).length ≤ k) :
    downSample crowd (some k) pf0 = uniqueRows pf0 := by
  rw [downSample_some_eq, if_neg (by omega)]

theorem downSample_length_of_gt (crowd : List Row → List QInf)
    (hc : ∀ l, (crowd l).length = l.length) (pf0 : List Row) (k : Nat)
    (h : k < (uniqueRows pf0).length) :
    (downSample crowd (some k) pf0).length = k := by
  rw [downSample_some_eq, if_pos (by omega), downLoop_length crowd hc]
  omega

theorem downSample_subset {crowd : List Row → List QInf}
    {nPtsKeep : Option Nat} {pf0 x : _}
    (h : x ∈ downSample crowd nPtsKeep pf0) : x ∈ pf0 := by
  cases nPtsKeep with
  | none => exact uniqueRows_mem.mp h
  | some k =>
    rw [downSample_some_eq] at h
    by_cases hlen : (uniqueRows pf0).length > k
    · rw [if_pos hlen] at h
      exact uniqueRows_mem.mp (downLoop_subset h)
    · rw [if_neg hlen] at h
      exact uniqueRows_mem.mp h

theorem downSample_nodup (crowd : List Row → List QInf)
    (nPtsKeep : Option Nat) (pf0 : List Row) :
    (downSample crowd nPtsKeep pf0).Nodup := by
  cases nPtsKeep with
  | none => exact uniqueRows_nodup pf0
  | some k =>
    rw [downSample_some_eq]
    by_cases hlen : (uniqueRows pf0).length > k
    · rw [if_pos hlen]
      exact downLoop_nodup (uniqueRows_nodup pf0)
    · rw [if_neg hlen]
      exact uniqueRows_nodup pf0

/-! ## The enumerate-vs-search decision -/

theorem spaceSizeLoop_spec : ∀ vars : List VarB,
    (spaceSizeLoop vars = none ↔ ∃ v ∈ vars, v.isReal = true) ∧
    ((∀ v ∈ vars, v.isReal = false) →
      spaceSizeLoop vars = some (specProdSize vars)) := by
  intro vars
  induction vars with
  | nil =>
    constructor
    · simp [spaceSizeLoop]
    · intro _; simp [spaceSizeLoop, specProdSize]
  | cons v vs ih =>
    by_cases hv : v.isReal = true
    · constructor
      · simp only [spaceSizeLoop, if_pos hv]
        constructor
        · intro _; exact ⟨v, List.mem_cons_self v vs, hv⟩
        · intro _; trivial
      · intro h
        exact absurd (h v (List.mem_cons_self v vs)) (by simp [hv])
    · have hv' : v.isReal = false := by
        cases hb : v.isReal
        · rfl
        · exact absurd hb hv
      constructor
      · simp only [spaceSizeLoop, if_neg hv]
        rw [Option.map_eq_none']
        rw [ih.1]
        constructor
        · rintro ⟨w, hw, hwr⟩
          exact ⟨w, List.mem_cons_of_mem v hw, hwr⟩
        · rintro ⟨w, hw, hwr⟩
          rcases List.mem_cons.mp hw with rfl | hw'
          · exact absurd hwr hv
          · exact ⟨w, hw', hwr⟩
      · intro h
        have hvs : ∀ w ∈ vs, w.isReal = false :=
          fun w hw => h w (List.mem_cons_of_mem v hw)
        simp only [spaceSizeLoop, if_neg hv, ih.2 hvs, Option.map_some',
          specProdSize, List.map_cons, List.prod_cons, Option.some.injEq]
        exact Int.mul_comm _ _

/-- The source's branch condition is the spec's: a fully discrete space
whose combinatorial size, the product of `(ub - lb + 1)` over the
dimensions, is below `pop_size * n_gen * n_repeat`. -/
theorem smallSpace_iff (vars : List VarB) (B : Nat) :
    smallSpace vars B = true ↔
      ((∀ v ∈ vars, v.isReal = false) ∧ specProdSize vars < (B : Int)) := by
  unfold smallSpace
  cases hs : spaceSizeLoop vars with
  | none =>
    simp only [Bool.false_eq_true, false_iff]
    rintro ⟨hall, _⟩
    rw [(spaceSizeLoop_spec vars).2 hall] at hs
    cases hs
  | some n =>
    simp only [decide_eq_true_eq]
    constructor
    · intro hn
      have hnone : ¬ spaceSizeLoop vars = none := by rw [hs]; simp
      rw [(spaceSizeLoop_spec vars).1] at hnone
      push_neg at hnone
      have hall : ∀ v ∈ vars, v.isReal = false := by
        intro v hv
        cases hb : v.isReal
        · rfl
        · exact absurd hb (hnone v hv)
      refine ⟨hall, ?_⟩
      have := (spaceSizeLoop_spec vars).2 hall
      rw [hs] at this
      cases this
      exact hn
    · rintro ⟨hall, hlt⟩
      have := (spaceSizeLoop_spec vars).2 hall
      rw [hs] at this
      cases this
      exact hlt

/-! ## Path equations of `calcParetoFront` -/

theorem calcParetoFront_hit (c : List Row) (p g r : Nat) (k : Option Nat)
    (inp : CalcIn) :
    calcParetoFront (some c) p g r k inp = (.ok c, some c) := rfl

theorem calcParetoFront_miss_small {p g r : Nat} {inp : CalcIn}
    (k : Option Nat) (h : smallSpace inp.vars (p * g * r) = true) :
    calcParetoFront none p g r k inp =
      (.ok (downSample inp.crowd k (ndFilter inp.evalF)),
       some (downSample inp.crowd k (ndFilter inp.evalF))) := by
  unfold calcParetoFront
  rw [if_pos h]

theorem calcParetoFront_miss_run_error {p g r : Nat} {inp : CalcIn}
    (k : Option Nat) (h : smallSpace inp.vars (p * g * r) = false) {e : Nat}
    (h2 : mergeRuns inp.runs = .error e) :
    calcParetoFront none p g r k inp = (.error (.runFail e), none) := by
  unfold calcParetoFront
  rw [if_neg (by simp [h]), h2]

theorem calcParetoFront_miss_merge_ok {p g r : Nat} {inp : CalcIn}
    (k : Option Nat) (h : smallSpace inp.vars (p * g * r) = false)
    {pf0 : List Row} (h2 : mergeRuns inp.runs = .ok (some pf0)) :
    calcParetoFront none p g r k inp =
      (.ok (downSample inp.crowd k pf0), some (downSample inp.crowd k pf0)) := by
  unfold calcParetoFront
  rw [if_neg (by simp [h]), h2]

theorem calcParetoFront_miss_merge_none {p g r : Nat} {inp : CalcIn}
    (k : Option Nat) (h : smallSpace inp.vars (p * g * r) = false)
    (h2 : mergeRuns inp.runs = .ok none) :
    calcParetoFront none p g r k inp = (.error .noResult, none) := by
  unfold calcParetoFront
  rw [if_neg (by simp [h]), h2]

/-- A successful computation always leaves its own result in the cache. -/
theorem calcParetoFront_ok_writes {cache : Option (List Row)}
    {p g r : Nat} {k : Option Nat} {inp : CalcIn} {pf : List Row}
    {c' : Option (List Row)}
    (h : calcParetoFront cache p g r k inp = (.ok pf, c')) :
    c' = some pf := by
  cases cache with
  | some c =>
    rw [calcParetoFront_hit, Prod.mk.injEq] at h
    obtain ⟨h1, h2⟩ := h
    cases h1
    exact h2.symm
  | none =>
    by_cases hs : smallSpace inp.vars (p * g * r) = true
    · rw [calcParetoFront_miss_small k hs, Prod.mk.injEq] at h
      obtain ⟨h1, h2⟩ := h
      cases h1
      exact h2.symm
    · have hs' : smallSpace inp.vars (p * g * r) = false := by
        simpa using hs
      cases hm : mergeRuns inp.runs with
      | error e =>
        rw [calcParetoFront_miss_run_error k hs' hm, Prod.mk.injEq] at h
        cases h.1
      | ok o =>
        cases o with
        | none =>
          rw [calcParetoFront_miss_merge_none k hs' hm, Prod.mk.injEq] at h
          cases h.1
        | some pf0 =>
          rw [calcParetoFront_miss_merge_ok k hs' hm, Prod.mk.injEq] at h
          obtain ⟨h1, h2⟩ := h
          cases h1
          exact h2.symm

/-! ## Well-formedness of the cache key -/

theorem keyCharB_normChar (c : Char) : keyCharB (normChar c) = true := by
  unfold normChar
  by_cases h : ('0' ≤ c ∧ c ≤ '9') ∨ ('a' ≤ c ∧ c ≤ 'z')
  · rw [if_pos h]
    unfold keyCharB
    rcases h with h | h
    · simp [h]
    · simp [h]
  · rw [if_neg h]
    decide

theorem normalizeId_all (s : List Char) :
    (normalizeId s).all keyCharB = true := by
  unfold normalizeId
  rw [List.all_eq_true]
  intro x hx
  obtain ⟨c, _, hc⟩ := List.mem_map.mp hx
  exact hc ▸ keyCharB_normChar c

theorem keyCharB_hexChar (n : Nat) : keyCharB (hexChar n) = true := by
  unfold hexChar
  have hlt : n % 16 < 16 := Nat.mod_lt _ (by norm_num)
  have H : ∀ m, m < 16 →
      keyCharB (Char.ofNat (if m < 10 then 48 + m else 87 + m)) = true := by
    decide
  exact H (n % 16) hlt

theorem flatMap_hexChar_all (bs : List Nat) :
    ((bs.flatMap fun b => [hexChar (b / 16), hexChar (b % 16)]).all
      keyCharB) = true := by
  induction bs with
  | nil => rfl
  | cons b t ih =>
    rw [List.flatMap_cons, List.all_append]
    rw [ih]
    simp [keyCharB_hexChar]

theorem md5Hex_all (msg : List Nat) : (md5Hex msg).all keyCharB = true :=
  flatMap_hexChar_all (md5Digest msg)

theorem all_take {p : Char → Bool} {l : List Char} (h : l.all p = true)
    (n : Nat) : ((l.take n).all p) = true := by
  rw [List.all_eq_true] at h ⊢
  exact fun x hx => h x ((List.take_sublist n l).subset hx)

theorem keyOfIdent_all {t : List Char} (ht : t.all keyCharB = true) :
    (keyOfIdent t).all keyCharB = true := by
  unfold keyOfIdent
  by_cases h : t.length > 20
  · rw [if_pos h]
    exact all_take (md5Hex_all (utf8Bytes t)) 20
  · rw [if_neg h]
    exact ht

theorem keyOfIdent_length (t : List Char) : (keyOfIdent t).length ≤ 20 := by
  unfold keyOfIdent
  by_cases h : t.length > 20
  · rw [if_pos h]
    rw [List.length_take]
    omega
  · rw [if_neg h]
    omega

theorem pfCacheKey_all (reprS className : String) :
    (pfCacheKey reprS className).all keyCharB = true :=
  keyOfIdent_all (normalizeId_all _)

theorem pfCacheKey_length (reprS className : String) :
    (pfCacheKey reprS className).length ≤ 20 :=
  keyOfIdent_length _

theorem pfCacheKey_default_form (r₁ r₂ c : String)
    (h₁ : r₁.toList.headD ' ' = '<') (h₂ : r₂.toList.headD ' ' = '<') :
    pfCacheKey r₁ c = pfCacheKey r₂ c := by
  unfold pfCacheKey
  rw [if_pos h₁, if_pos h₂]

theorem pfCacheKey_repr_only {r : String} (c₁ c₂ : String)
    (h : ¬ r.toList.headD ' ' = '<') :
    pfCacheKey r c₁ = pfCacheKey r c₂ := by
  unfold pfCacheKey
  rw [if_neg h, if_neg h]

/-! ## Claim theorems -/

/-- Claim C1, counterexample.  The claim states that each down-sampling
iteration removes the point with the *second*-lowest crowding distance and
explicitly never the globally lowest-scoring one.  On the concrete
non-dominated, deduplicated front `[[0,10],[1,6],[3,2],[6,0]]` the
crowding distances are `[+inf, 13/20, 43/60, +inf]`; one iteration of the
source loop (`pf[np.argsort(crowding)[1:]]`) keeps `[[3,2],[0,10],[6,0]]`,
i.e. it removes `[1,6]` — the unique point with the globally *lowest*
crowding distance (`13/20 < 43/60 < +inf`) — while the second-lowest
point `[3,2]` stays. -/
theorem claim1_counterexample :
    calcCrowding [[0,10],[1,6],[3,2],[6,0]] =
      [none, some (13/20 : ℚ), some (43/60 : ℚ), none] ∧
    crowdStep calcCrowding [[0,10],[1,6],[3,2],[6,0]] =
      [[3,2],[0,10],[6,0]] ∧
    (13/20 : ℚ) < 43/60 := by
  refine ⟨?_, ?_, ?_⟩ <;> with_unfolding_all decide

/-- Claim C1 (amended): with a deduplicated non-dominated set of `m`
points and `n_pts_keep = k < m`, the reduction runs the removal loop
exactly `m - k` times and leaves exactly `k` points; each iteration
recomputes the crowding distance of every point of the current set and
removes a single point achieving the *lowest* crowding distance
(`np.argsort(...)[1:]` drops the first index of the ascending argsort),
not the second-lowest. -/
theorem claim1_amended (crowd : List Row → List QInf)
    (hc : ∀ l, (crowd l).length = l.length) (pf0 : List Row) (k : Nat)
    (h : k < (uniqueRows pf0).length) :
    downSample crowd (some k) pf0 =
      downLoop crowd ((uniqueRows pf0).length - k) (uniqueRows pf0) ∧
    (downSample crowd (some k) pf0).length = k ∧
    (∀ l : List Row, 0 < l.length →
      ∃ i, i < l.length ∧
        (∀ j < l.length,
          qleB (scoreAt (crowd l) i) (scoreAt (crowd l) j) = true) ∧
        (crowdStep crowd l).Perm (l.eraseIdx i)) := by
  refine ⟨?_, downSample_length_of_gt crowd hc pf0 k h, ?_⟩
  · rw [downSample_some_eq, if_pos (by omega)]
  · intro l hl
    exact crowdStep_spec crowd l (hc l) hl

/-- Witness for the amended C1 at a concrete crowding function and front:
a 2-point deduplicated set reduced to `n_pts_keep = 1`. -/
theorem claim1_amended_witness :
    1 < (uniqueRows [[0],[1]]).length ∧
    (downSample (fun l => List.replicate l.length (some 0)) (some 1)
      [[0],[1]]).length = 1 :=
  ⟨by decide,
   (claim1_amended (fun l => List.replicate l.length (some 0))
     (fun l => by simp) [[0],[1]] 1 (by decide)).2.1⟩

/-- Claim C2: on a cache miss the exhaustive path is taken iff every
variable is discrete and the combinatorial size — the product of
`(upper - lower + 1)` over the dimensions — is below
`pop_size * n_gen * n_repeat`; on that path the front before
down-sampling is the non-dominated subset of the evaluation of every
valid design point (the exhaustive sampler and evaluator are modelled by
`CalcIn.evalF` from the spec). -/
theorem claim2_exhaustive (p g r : Nat) (k : Option Nat) (inp : CalcIn) :
    (smallSpace inp.vars (p * g * r) = true ↔
      ((∀ v ∈ inp.vars, v.isReal = false) ∧
        specProdSize inp.vars < ((p * g * r : Nat) : Int))) ∧
    (smallSpace inp.vars (p * g * r) = true →
      calcParetoFront none p g r k inp =
        (.ok (downSample inp.crowd k (ndFilter inp.evalF)),
         some (downSample inp.crowd k (ndFilter inp.evalF)))) :=
  ⟨smallSpace_iff inp.vars (p * g * r),
   fun h => calcParetoFront_miss_small k h⟩

/-- Witness for C2: three discrete variables on `0..3` (64 points) with
the default budget `200*20*10 = 40000`; the exhaustive branch fires. -/
theorem claim2_witness :
    smallSpace [⟨false, 0, 3⟩, ⟨false, 0, 3⟩, ⟨false, 0, 3⟩]
      (200 * 20 * 10) = true ∧
    calcParetoFront none 200 20 10 (some 100)
      ⟨[⟨false, 0, 3⟩, ⟨false, 0, 3⟩, ⟨false, 0, 3⟩], [[0,1],[1,0],[2,2]],
        [], fun l => List.replicate l.length (some 0)⟩ =
      (.ok (downSample (fun l => List.replicate l.length (some 0)) (some 100)
        (ndFilter [[0,1],[1,0],[2,2]])),
       some (downSample (fun l => List.replicate l.length (some 0)) (some 100)
        (ndFilter [[0,1],[1,0],[2,2]]))) :=
  ⟨by decide,
   (claim2_exhaustive 200 20 10 (some 100)
     ⟨[⟨false, 0, 3⟩, ⟨false, 0, 3⟩, ⟨false, 0, 3⟩], [[0,1],[1,0],[2,2]],
       [], fun l => List.replicate l.length (some 0)⟩).2 (by decide)⟩

/-- Claim C3: on every path — cache hit, exhaustive, stochastic — no row
of a successfully returned front is dominated by any other row of it, and
the cache content written on success satisfies the same invariant.  The
hypotheses state what the collaborators guarantee: each worker run's
front is internally non-dominated (NSGA2 returns its first non-dominated
front), and any pre-existing cache content is a previously returned
front, hence non-dominated. -/
theorem claim3_invariant (cache : Option (List Row)) (p g r : Nat)
    (k : Option Nat) (inp : CalcIn)
    (hruns : ∀ f : List Row, (.ok f) ∈ inp.runs → NonDomSet f)
    (hcache : ∀ c, cache = some c → NonDomSet c) :
    (∀ pf c', calcParetoFront cache p g r k inp = (.ok pf, c') →
      NonDomSet pf) ∧
    (∀ pf c, calcParetoFront cache p g r k inp = (.ok pf, some c) →
      NonDomSet c) := by
  have main : ∀ pf c', calcParetoFront cache p g r k inp = (.ok pf, c') →
      NonDomSet pf := by
    intro pf c' h
    cases cache with
    | some c =>
      rw [calcParetoFront_hit, Prod.mk.injEq] at h
      cases h.1
      exact hcache pf rfl
    | none =>
      by_cases hs : smallSpace inp.vars (p * g * r) = true
      · rw [calcParetoFront_miss_small k hs, Prod.mk.injEq] at h
        cases h.1
        exact NonDomSet.mem_subset (ndFilter_nondom inp.evalF)
          (fun x hx => downSample_subset hx)
      · have hs' : smallSpace inp.vars (p * g * r) = false := by
          simpa using hs
        cases hm : mergeRuns inp.runs with
        | error e =>
          rw [calcParetoFront_miss_run_error k hs' hm, Prod.mk.injEq] at h
          cases h.1
        | ok o =>
          cases o with
          | none =>
            rw [calcParetoFront_miss_merge_none k hs' hm, Prod.mk.injEq] at h
            cases h.1
          | some pf0 =>
            rw [calcParetoFront_miss_merge_ok k hs' hm, Prod.mk.injEq] at h
            cases h.1
            obtain ⟨frs, hfrs, hfold⟩ := mergeRuns_ok hm
            have hfrnd : ∀ f ∈ frs, NonDomSet f := by
              intro f hf
              exact hruns f (by rw [hfrs]; exact List.mem_map_of_mem _ hf)
            have hmem := foldl_mergeStep_eq_nd_flatten hfrnd hfold
            have hnd0 : NonDomSet pf0 := by
              intro x hx y hy
              exact ndFilter_nondom frs.flatten x ((hmem x).mp hx) y
                ((hmem y).mp hy)
            exact NonDomSet.mem_subset hnd0 (fun x hx => downSample_subset hx)
  refine ⟨main, ?_⟩
  intro pf c h
  have hc := calcParetoFront_ok_writes h
  have hcp : c = pf := Option.some.inj hc
  rw [hcp]
  exact main pf (some c) h

/-- Witness for C3: a concrete exhaustive cache-miss computation; the
returned front `[[0,1],[1,0]]` is non-dominated. -/
theorem claim3_witness :
    calcParetoFront none 2 1 1 none
      ⟨[], [[0,1],[1,0],[2,2]], [], fun l => List.replicate l.length (some 0)⟩ =
      (.ok [[0,1],[1,0]], some [[0,1],[1,0]]) ∧
    NonDomSet [[0,1],[1,0]] :=
  ⟨by with_unfolding_all decide,
   (claim3_invariant none 2 1 1 none
     ⟨[], [[0,1],[1,0],[2,2]], [], fun l => List.replicate l.length (some 0)⟩
     (fun f hf => by cases hf) (fun c hc => by cases hc)).1
     [[0,1],[1,0]] (some [[0,1],[1,0]]) (by with_unfolding_all decide)⟩

/-- Claim C4: a cache hit returns the deserialized content unconditionally
— for any `pop_size`/`n_gen`/`n_repeat`/`n_pts_keep` and any problem
inputs — and does not modify the cache; hence the second of two
successive calls returns exactly the first call's result regardless of
its own arguments, reading the cache only. -/
theorem claim4_cache_idempotent :
    (∀ (c : List Row) (p g r : Nat) (k : Option Nat) (inp : CalcIn),
      calcParetoFront (some c) p g r k inp = (.ok c, some c)) ∧
    (∀ (cache : Option (List Row)) (p₁ g₁ r₁ : Nat) (k₁ : Option Nat)
      (inp₁ : CalcIn) (pf : List Row) (c₁ : Option (List Row)),
      calcParetoFront cache p₁ g₁ r₁ k₁ inp₁ = (.ok pf, c₁) →
      ∀ (p₂ g₂ r₂ : Nat) (k₂ : Option Nat) (inp₂ : CalcIn),
        calcParetoFront c₁ p₂ g₂ r₂ k₂ inp₂ = (.ok pf, c₁)) := by
  refine ⟨fun c p g r k inp => calcParetoFront_hit c p g r k inp, ?_⟩
  intro cache p₁ g₁ r₁ k₁ inp₁ pf c₁ h p₂ g₂ r₂ k₂ inp₂
  have hc := calcParetoFront_ok_writes h
  rw [hc]
  exact calcParetoFront_hit pf p₂ g₂ r₂ k₂ inp₂

/-- Witness for C4: after a concrete first computation, a second call
with entirely different parameters returns the identical array and leaves
the cache untouched. -/
theorem claim4_witness :
    calcParetoFront none 2 1 1 none
      ⟨[], [[0,1],[1,0],[2,2]], [], fun l => List.replicate l.length (some 0)⟩ =
      (.ok [[0,1],[1,0]], some [[0,1],[1,0]]) ∧
    calcParetoFront (some [[0,1],[1,0]]) 7 3 2 (some 1)
      ⟨[⟨true, 0, 1⟩], [], [.error 9], fun _ => []⟩ =
      (.ok [[0,1],[1,0]], some [[0,1],[1,0]]) :=
  ⟨by with_unfolding_all decide,
   claim4_cache_idempotent.2 none 2 1 1 none
     ⟨[], [[0,1],[1,0],[2,2]], [], fun l => List.replicate l.length (some 0)⟩
     [[0,1],[1,0]] (some [[0,1],[1,0]]) (by with_unfolding_all decide)
     7 3 2 (some 1) ⟨[⟨true, 0, 1⟩], [], [.error 9], fun _ => []⟩⟩

/-- Claim C5: assuming each run's front is internally non-dominated, the
running combined front after merging the first `i` run fronts (in
submission order) equals — as a set — the non-dominated subset of the
union of those fronts; in particular the incremental
concatenate-then-filter accumulation over all fronts yields the same set
as a single one-shot non-dominated filter of the full concatenation. -/
theorem claim5_merge (frs : List (List Row))
    (hnd : ∀ f ∈ frs, NonDomSet f) :
    (∀ (i : Nat) (pf : List Row),
      List.foldl mergeStep none (frs.take i) = some pf →
      ∀ x, x ∈ pf ↔ x ∈ ndFilter (frs.take i).flatten) ∧
    (∀ pf : List Row, List.foldl mergeStep none frs = some pf →
      ∀ x, x ∈ pf ↔ x ∈ ndFilter frs.flatten) := by
  constructor
  · intro i pf h x
    exact foldl_mergeStep_eq_nd_flatten
      (fun f hf => hnd f ((List.take_sublist i frs).subset hf)) h x
  · intro pf h x
    exact foldl_mergeStep_eq_nd_flatten hnd h x

/-- Witness for C5 on two concrete run fronts. -/
theorem claim5_witness :
    NonDomSet [[1,3],[2,2]] ∧
    (([0,5] : Row) ∈ [[0,5],[1,3],[2,2]] ↔
      ([0,5] : Row) ∈ ndFilter ([[[0,5]],[[1,3],[2,2]]] :
        List (List Row)).flatten) :=
  ⟨by decide,
   (claim5_merge [[[0,5]],[[1,3],[2,2]]] (by decide)).2
     [[0,5],[1,3],[2,2]] (by decide) [0,5]⟩

/-- Claim C6: the returned front's size equals the deduplicated
non-dominated set's size when `n_pts_keep` is `None` or when that set has
at most `n_pts_keep` points (no removal iteration runs), and equals
exactly `n_pts_keep` otherwise. -/
theorem claim6_sizes (crowd : List Row → List QInf)
    (hc : ∀ l, (crowd l).length = l.length) (pf0 : List Row) :
    (downSample crowd none pf0).length = (uniqueRows pf0).length ∧
    (∀ k, (uniqueRows pf0).length ≤ k →
      downSample crowd (some k) pf0 = uniqueRows pf0) ∧
    (∀ k, k < (uniqueRows pf0).length →
      (downSample crowd (some k) pf0).length = k) := by
  refine ⟨rfl, ?_, ?_⟩
  · intro k hk
    exact downSample_of_le crowd pf0 k hk
  · intro k hk
    exact downSample_length_of_gt crowd hc pf0 k hk

/-- Witness for C6 on a concrete three-point front: no limit, a limit
above the size, and a limit below the size. -/
theorem claim6_witness :
    (downSample (fun l => List.replicate l.length (some 0)) none
      [[0],[2],[1]]).length = (uniqueRows [[0],[2],[1]]).length ∧
    downSample (fun l => List.replicate l.length (some 0)) (some 5)
      [[0],[2],[1]] = uniqueRows [[0],[2],[1]] ∧
    (downSample (fun l => List.replicate l.length (some 0)) (some 2)
      [[0],[2],[1]]).length = 2 := by
  have h := claim6_sizes (fun l => List.replicate l.length (some 0))
    (fun l => by simp) [[0],[2],[1]]
  exact ⟨h.1, h.2.1 5 (by decide), h.2.2 2 (by decide)⟩

/-- Claim C7: on the stochastic path (cache miss, space not exhaustively
enumerable), if any worker run raised then — after all runs have
completed, modelled by the full list of run outcomes being available —
the computation propagates the first failing run's exception in
submission order, returns no front, and leaves the persisted cache state
unchanged (no write happens). -/
theorem claim7_error_propagation (p g r : Nat) (k : Option Nat)
    (inp : CalcIn) (e : Nat)
    (h1 : smallSpace inp.vars (p * g * r) = false)
    (h2 : firstRunError inp.runs = some e) :
    calcParetoFront none p g r k inp = (.error (.runFail e), none) :=
  calcParetoFront_miss_run_error k h1 (mergeRuns_first_error h2)

/-- Witness for C7: one continuous variable forces the stochastic path;
the second of two runs raised exception `7`. -/
theorem claim7_witness :
    smallSpace [⟨true, 0, 1⟩] (1 * 1 * 2) = false ∧
    firstRunError [.ok [[0]], .error 7] = some 7 ∧
    calcParetoFront none 1 1 2 (some 5)
      ⟨[⟨true, 0, 1⟩], [], [.ok [[0]], .error 7],
        fun l => List.replicate l.length (some 0)⟩ =
      (.error (.runFail 7), none) :=
  ⟨by decide, by decide,
   claim7_error_propagation 1 1 2 (some 5)
     ⟨[⟨true, 0, 1⟩], [], [.ok [[0]], .error 7],
       fun l => List.replicate l.length (some 0)⟩ 7 (by decide) (by decide)⟩

/-- Claim C8, counterexample.  The claim says the cache path is a
function of the problem's repr alone, the key being the normalised
(lowercased, stripped, `[^0-9a-z] -> _`) repr.  But when the repr starts
with `'<'` the source falls back to the class name: two problems with the
identical repr `"<x>"` but different class names get different paths, and
the actual key `"a"` differs from the claim's formula applied to the
repr, `"_x_"`. -/
theorem claim8_counterexample :
    pfCachePath "h" "<x>" "A" ≠ pfCachePath "h" "<x>" "B" ∧
    pfCacheKey "<x>" "A" = ['a'] ∧
    normalizeId "<x>".toList = ['_', 'x', '_'] := by
  refine ⟨?_, ?_, ?_⟩ <;> decide

/-- Claim C8 (amended): the key is a deterministic function of the repr
and — only when the repr starts with `'<'` — of the class name: the
chosen identity string is lowercased, stripped and normalised to
`[0-9a-z_]`, and replaced by the first 20 characters of its MD5 hex
digest when longer than 20 characters; the key always consists of
lowercase alphanumerics and underscores only and has at most 20
characters, and for reprs not of the default `'<...'` form it does not
depend on the class name. -/
theorem claim8_amended (r c : String) :
    (pfCacheKey r c).all keyCharB = true ∧
    (pfCacheKey r c).length ≤ 20 ∧
    (¬ r.toList.headD ' ' = '<' → ∀ c₂, pfCacheKey r c = pfCacheKey r c₂) ∧
    (r.toList.headD ' ' = '<' → ∀ r₂ : String, r₂.toList.headD ' ' = '<' →
      pfCacheKey r c = pfCacheKey r₂ c) :=
  ⟨pfCacheKey_all r c, pfCacheKey_length r c,
   fun h c₂ => pfCacheKey_repr_only c c₂ h,
   fun h r₂ h₂ => pfCacheKey_default_form r r₂ c h h₂⟩

/-- Witness for the amended C8 at a concrete non-default repr. -/
theorem claim8_witness :
    ¬ ("myrepr".toList.headD ' ' = '<') ∧
    pfCacheKey "myrepr" "C" = pfCacheKey "myrepr" "D" ∧
    (pfCacheKey "myrepr" "C").length ≤ 20 :=
  ⟨by decide,
   (claim8_amended "myrepr" "C").2.2.1 (by decide) "D",
   (claim8_amended "myrepr" "C").2.1⟩

/-- Claim C9, counterexample.  The claim says a problem whose repr is the
default `'<...>'` object form makes the identity derivation fail
immediately.  The source instead falls back to the class name
(`if class_str.startswith('<'): class_str = self.__class__.__name__`) and
never fails: on repr `"<A object at 0x1>"` with class name `"MyProb"`
the derivation succeeds and produces the key `"myprob"`. -/
theorem claim9_counterexample :
    pfCacheKey "<A object at 0x1>" "MyProb" = "myprob".toList := by decide

/-- Claim C9 (amended): for a problem whose repr has the default `'<...'`
form, the key derivation does not fail; it uses the class name as the
textual identity (so it is independent of the repr's content) and yields
a well-formed key. -/
theorem claim9_amended (r c : String) (h : r.toList.headD ' ' = '<') :
    pfCacheKey r c = keyOfIdent (normalizeId c.toList) ∧
    (pfCacheKey r c).all keyCharB = true := by
  constructor
  · unfold pfCacheKey
    rw [if_pos h]
  · exact pfCacheKey_all r c

/-- Witness for the amended C9. -/
theorem claim9_amended_witness :
    ("<obj at 0x0>".toList.headD ' ' = '<') ∧
    pfCacheKey "<obj at 0x0>" "P" = keyOfIdent (normalizeId "P".toList) :=
  ⟨by decide, (claim9_amended "<obj at 0x0>" "P" (by decide)).1⟩

/-- Claim C10, counterexample.  The claim says every cache-miss result is
sorted in ascending lexicographic row order.  That holds only until the
removal loop runs: each iteration re-indexes the array by the crowding
argsort.  On a concrete cache-miss exhaustive computation with
`n_pts_keep = 3` over four evaluated points, the returned (and persisted)
front is `[[3,2],[0,10],[6,0]]`, which is not lexicographically sorted
(`[3,2]` precedes the lexicographically smaller `[0,10]`). -/
theorem claim10_counterexample :
    calcParetoFront none 200 20 10 (some 3)
      ⟨[⟨false, 0, 1⟩, ⟨false, 0, 1⟩], [[0,10],[1,6],[3,2],[6,0]], [],
        calcCrowding⟩ =
      (.ok [[3,2],[0,10],[6,0]], some [[3,2],[0,10],[6,0]]) ∧
    rowsSortedB [[3,2],[0,10],[6,0]] = false := by
  constructor <;> with_unfolding_all decide

/-- Claim C10 (amended): the rows of every down-sampled front are
pairwise distinct (a consequence of `np.unique` plus removal-only
iterations), and the ascending lexicographic row order holds whenever no
removal iteration occurs — `n_pts_keep` of `None`, or a deduplicated set
already within the limit; a removal iteration reorders rows by ascending
crowding distance instead. -/
theorem claim10_amended (crowd : List Row → List QInf) (pf0 : List Row) :
    (∀ k, (downSample crowd k pf0).Nodup) ∧
    rowsSortedB (downSample crowd none pf0) = true ∧
    (∀ k, (uniqueRows pf0).length ≤ k →
      rowsSortedB (downSample crowd (some k) pf0) = true) := by
  refine ⟨fun k => downSample_nodup crowd k pf0, uniqueRows_sortedB pf0, ?_⟩
  intro k hk
  rw [downSample_of_le crowd pf0 k hk]
  exact uniqueRows_sortedB pf0

/-- Witness for the amended C10. -/
theorem claim10_amended_witness :
    (uniqueRows [[1],[0]]).length ≤ 5 ∧
    rowsSortedB (downSample (fun l => List.replicate l.length (some 0))
      (some 5) [[1],[0]]) = true :=
  ⟨by decide,
   (claim10_amended (fun l => List.replicate l.length (some 0))
     [[1],[0]]).2.2 5 (by decide)⟩

end SBArchOpt


